import Mathlib

/-!
Verification development for the dn-tracker web dashboard.

The model below is a shallow embedding of the repository's TypeScript
source into Lean:

* JavaScript strings are modelled as `List Char` (called `Chars`), so that
  character-level operations (CSV escaping, splitting) are fully
  executable and provable.
* A history-log row (`Record<string, unknown>` in the source) is an
  association list from key to `CsvValue`; `CsvValue.null` stands for the
  JavaScript `null`/`undefined` values and `CsvValue.str` for any value
  rendered through `String(value)` (including `Date`, modelled by its ISO
  text).
* `String.prototype.localeCompare` is modelled as codepoint-lexicographic
  comparison, which agrees with it on the ASCII identifier-style column
  names this application produces.
* `Array.prototype.sort` is modelled by `List.insertionSort`; since the
  comparator used by `orderColumns` never returns 0 on distinct keys, any
  comparison sort returns the same list, so the choice of algorithm is
  immaterial.
* Timestamps (JavaScript `Date` instants) are modelled as seconds, and
  calendar days (`date-fns.differenceInCalendarDays`) as `t / 86400`.
* The Supabase remote store is an oracle: a call either returns data
  (`Except.ok`) or an error message (`Except.error`).  Each modelled
  operation additionally reports whether the remote call was issued.
-/

/-- JavaScript strings, modelled at the character level. -/
abbrev Chars := List Char

/-- A cell value of a schema-less history-log row.  `null` models both
`null` and `undefined`/absent values; `str` models every other value by
the text it is rendered to. -/
inductive CsvValue where
  | null : CsvValue
  | str : Chars → CsvValue
deriving DecidableEq

/-- A history-log row: `Record<string, unknown>` from the source, as an
association list in object-key order. -/
abbrev Row := List (Chars × CsvValue)

/-- The key sequence of a row (`Object.keys(row)`). -/
def rowKeys (row : Row) : List Chars := row.map Prod.fst

/-- One step of collecting a key into a JS `Set` (insertion order is kept,
duplicates are dropped): the body of `seen.add(key)` guarded by
`!seen.has(key)`. -/
def insertSeen (seen : List Chars) (k : Chars) : List Chars :=
  if k ∈ seen then seen else seen ++ [k]

/-- The union of all keys appearing in any row, in first-seen order.  This
is both the `seen` set of `orderColumns` (HistoryLogViewer) and
`collectColumns` of the export route: both iterate the rows with
`forEach`, adding `Object.keys(row)` to a `Set`, and read the set back in
insertion order. -/
def collectSeen (rows : List Row) : List Chars :=
  rows.foldl (fun s row => (rowKeys row).foldl insertSeen s) []

/-- Index of the first occurrence of `a` in `l` (length of `l` when
absent). -/
def firstIndex (l : List Chars) (a : Chars) : Nat :=
  match l with
  | [] => 0
  | b :: rest => if b = a then 0 else firstIndex rest a + 1

/-- JavaScript `Array.prototype.indexOf`: first index of `a`, `-1` when
absent. -/
def jsIndexOf (l : List Chars) (a : Chars) : Int :=
  if a ∈ l then (firstIndex l a : Int) else -1

/-- Model of `a.localeCompare(b)`: codepoint-lexicographic three-way
comparison. -/
def localeCompareInt (a b : Chars) : Int :=
  if a < b then -1 else if a = b then 0 else 1

/-- The comparator passed to `.sort` in `orderColumns`:
names on the preference list first, in list order; other names
after them, compared with `localeCompare`. -/
def colCmp (pref : List Chars) (a b : Chars) : Int :=
  let ia := jsIndexOf pref a
  let ib := jsIndexOf pref b
  if ia = -1 ∧ ib = -1 then localeCompareInt a b
  else if ia = -1 then 1
  else if ib = -1 then -1
  else ia - ib

/-- The non-strict order induced by the `orderColumns` comparator. -/
def colLe (pref : List Chars) (a b : Chars) : Prop :=
  colCmp pref a b ≤ 0

instance (pref : List Chars) : DecidableRel (colLe pref) :=
  fun a b => inferInstanceAs (Decidable (colCmp pref a b ≤ 0))

/-- `orderColumns` from `HistoryLogViewer`: the union of observed keys,
sorted with the preference comparator. -/
def orderColumns (pref : List Chars) (rows : List Row) : List Chars :=
  List.insertionSort (colLe pref) (collectSeen rows)

/-- The preference list of `src/HistoryLogViewer.tsx`. -/
def PREFERRED_ORDER : List Chars :=
  ["created_at", "character_name", "character_id", "action", "details", "notes"].map String.data

/-- The preference list of the dashboard-bundled `HistoryLogViewer`
variant (`src/unnamed/part_001`). -/
def PREFERRED_ORDER_SNAPSHOT : List Chars :=
  ["snapshot_date", "character_name", "character_id", "action", "details", "notes",
   "daily_status", "wtp", "sdn_outskirts", "sdn_core", "golden_active",
   "golden_started_at", "golden_expired_at"].map String.data

/-- The test `/[",\n]/.test(str)` of `escapeCsvValue`. -/
def needsQuoting (s : Chars) : Bool :=
  s.any (fun c => c == '"' || c == ',' || c == '\n')

/-- The replacement `str.replace(/"/g, '""')` of `escapeCsvValue`. -/
def doubleQuotes : Chars → Chars
  | [] => []
  | c :: rest => if c = '"' then '"' :: '"' :: doubleQuotes rest else c :: doubleQuotes rest

/-- `escapeCsvValue` from the export route: `null`/`undefined` become the
empty field; any value containing a quote, comma or newline is wrapped in
quotes with internal quotes doubled; anything else is rendered plain.
(`Date` values, stringified by `toISOString()`, are modelled as the `str`
of that text.) -/
def escapeCsvValue : CsvValue → Chars
  | .null => []
  | .str s =>
      let escaped := doubleQuotes s
      if needsQuoting s then '"' :: (escaped ++ ['"']) else escaped

/-- JavaScript `row[column]` as consumed by `escapeCsvValue`: a missing
key behaves like `null` (both render as the empty field). -/
def getVal (row : Row) (c : Chars) : CsvValue :=
  (row.lookup c).getD .null

/-- `toCsv` from the export route: empty input gives the empty document;
otherwise a header of the collected columns and one line per row, joined
with CRLF. -/
def toCsv (rows : List Row) : Chars :=
  if rows = [] then []
  else
    List.intercalate ['\r', '\n']
      (List.intercalate [','] (collectSeen rows) ::
        rows.map (fun row =>
          List.intercalate [',']
            ((collectSeen rows).map (fun c => escapeCsvValue (getVal row c)))))

/-- Record splitting of a standard (RFC 4180 style) CSV reader: break the
document at each CRLF pair, leftmost first. -/
def splitCRLF : Chars → List Chars
  | [] => [[]]
  | [c] => [[c]]
  | c1 :: c2 :: rest =>
      if c1 = '\r' ∧ c2 = '\n' then [] :: splitCRLF rest
      else
        match splitCRLF (c2 :: rest) with
        | [] => [[c1]]
        | l :: ls => (c1 :: l) :: ls

/-- Undo quote doubling inside a quoted CSV field. -/
def undouble : Chars → Chars
  | [] => []
  | [c] => [c]
  | c1 :: c2 :: rest =>
      if c1 = '"' ∧ c2 = '"' then '"' :: undouble rest
      else c1 :: undouble (c2 :: rest)

/-- Unquote one CSV field: a field wrapped in double quotes is stripped
and its doubled quotes are undone; any other field is taken literally. -/
def unquoteField (f : Chars) : Chars :=
  match f with
  | [] => []
  | c :: rest =>
      if c = '"' ∧ rest.getLast? = some '"' then undouble rest.dropLast
      else c :: rest

/-- A standard CSV parser for documents produced by `toCsv`: the first
CRLF-separated record is the header, every further record is one row whose
fields are paired with the header names.  The empty document parses to
zero rows. -/
def parseCsv (doc : Chars) : List Row :=
  if doc = [] then []
  else
    match splitCRLF doc with
    | [] => []
    | header :: lines =>
        lines.map (fun line =>
          ((header.splitOn ',').map unquoteField).zip
            (((line.splitOn ',').map unquoteField).map CsvValue.str))

/-- The first line of a document, as a CSV reader sees it. -/
def firstLine (doc : Chars) : Chars :=
  (splitCRLF doc).headD []

/-- A piece of text that contains no comma, quote or newline, so CSV
serialisation leaves it untouched. -/
def SafeChars (s : Chars) : Prop :=
  ∀ c ∈ s, c ≠ ',' ∧ c ≠ '"' ∧ c ≠ '\n'

instance (s : Chars) : Decidable (SafeChars s) :=
  inferInstanceAs (Decidable (∀ c ∈ s, c ≠ ',' ∧ c ≠ '"' ∧ c ≠ '\n'))

/-- A value is textual and CSV-safe: it is a `str` whose text contains no
comma, quote or newline. -/
def ValIsSafe : CsvValue → Prop
  | .null => False
  | .str s => SafeChars s

instance : (v : CsvValue) → Decidable (ValIsSafe v)
  | .null => isFalse (fun h => h)
  | .str s => inferInstanceAs (Decidable (SafeChars s))

/-- The "text" of a value never contains a comma, quote or newline: what
the original round-trip claim assumes of a row set (an absent value has
empty text, so it is vacuously safe). -/
def ValTextSafe : CsvValue → Prop
  | .null => True
  | .str s => SafeChars s

instance : (v : CsvValue) → Decidable (ValTextSafe v)
  | .null => isTrue trivial
  | .str s => inferInstanceAs (Decidable (SafeChars s))

/-! ### Log query and export operations

Date parameters are modelled as already-parsed instants (`Option Nat`,
days since epoch); an absent parameter is `none`.  The Supabase query is
an oracle `Except String (List Row)` standing for the filtered response or
a reported error.  Every operation returns, besides its visible result, a
`Bool` recording whether the remote call was issued. -/

/-- The error message the client shows for an invalid date range. -/
def invalidRangeMsg : String := "Rentang tanggal tidak valid."

/-- Shared tail of the client `load` effect in `HistoryLogViewer`: run the
remote query and either surface its error (clearing the rows) or store the
returned rows. -/
def runFetch (remote : Except String (List Row)) : Option String × List Row × Bool :=
  match remote with
  | .error m => (some m, [], true)
  | .ok data => (none, data, true)

/-- The `load` effect of `HistoryLogViewer`: if both bounds are present
and start is after end, set the invalid-range error and clear the rows
without querying; otherwise query the remote log store. -/
def loadHistory (start? end? : Option Nat) (remote : Except String (List Row)) :
    Option String × List Row × Bool :=
  match start?, end? with
  | some a, some b => if a > b then (some invalidRangeMsg, [], false) else runFetch remote
  | _, _ => runFetch remote

/-- Shared tail of the client `handleExport`: perform the endpoint fetch,
surfacing a failure as an error message. -/
def runExportClick (response : Except String Chars) : Option String × Bool :=
  match response with
  | .error m => (some m, true)
  | .ok _ => (none, true)

/-- The `handleExport` click handler of `HistoryLogViewer`: the same
invalid-range guard as `load`, applied before the export endpoint is
contacted. -/
def exportClick (start? end? : Option Nat) (response : Except String Chars) :
    Option String × Bool :=
  match start?, end? with
  | some a, some b => if a > b then (some invalidRangeMsg, false) else runExportClick response
  | _, _ => runExportClick response

/-- Result of the server-side export `GET` route: a CSV attachment or a
JSON error with an HTTP status. -/
inductive ExportResult where
  | csv : Chars → ExportResult
  | jsonError : Nat → String → ExportResult
deriving DecidableEq

/-- The export `GET` handler of `src/src/app/api/reset/weekly/route.ts`
(second document, the CSV export route).  The two date parameters are only
format-checked and forwarded into the remote filter; the handler never
compares them with each other, so the remote read is always issued.  An
empty result set yields a success response with an empty body. -/
def exportGET (_start? _end? : Option Nat) (remote : Except String (List Row)) :
    ExportResult × Bool :=
  match remote with
  | .error m => (.jsonError 500 m, true)
  | .ok data => (.csv (if data.length ≠ 0 then toCsv data else []), true)

/-! ### Dashboard state synchronizer

Embedding of `handleValueChange` from the `DailyDashboard` variant in
`src/unnamed/part_001` (lines 707-781): the optimistic update applied
when an edit is issued, and the commit/rollback applied when its upsert
response arrives.  Timestamps (`new Date().toISOString()`) are modelled as
`Nat` seconds. -/

/-- The five editable field keys of a dashboard row. -/
inductive FieldKey where
  | daily | wtp | sdn_outskirts | sdn_core | golden_goose
deriving DecidableEq, Fintype

/-- One dashboard row (`RowState` in the source). -/
structure RowState where
  characterId : String
  name : String
  fields : FieldKey → String
  golden_started_at : Option Nat
  isSaving : Bool
  lastError : Option String
deriving DecidableEq

/-- The `nextGoldenStartedAt` computation of `handleValueChange`: editing
the timed-flag field to "Active" stamps the current instant, editing it to
any other label clears the timestamp, and editing any other field keeps
the previous timestamp. -/
def nextGoldenTs (field : FieldKey) (value : String) (now : Nat) (prev : Option Nat) :
    Option Nat :=
  if field = .golden_goose then (if value = "Active" then some now else none) else prev

/-- The snapshot an in-flight edit closes over: the edited field and
value, the pre-edit value of that field, the pre-edit activation
timestamp, and the computed next timestamp. -/
structure Pending where
  characterId : String
  field : FieldKey
  value : String
  previousValue : String
  previousGolden : Option Nat
  nextGolden : Option Nat
deriving DecidableEq

/-- The optimistic `setRows` mapper of `handleValueChange`: the matching
row gets the new value and timestamp, `isSaving` set and `lastError`
cleared; other rows are untouched. -/
def optimisticUpdate (cid : String) (field : FieldKey) (value : String) (ts : Option Nat)
    (r : RowState) : RowState :=
  if r.characterId = cid then
    { r with fields := Function.update r.fields field value,
             golden_started_at := ts, isSaving := true, lastError := none }
  else r

/-- Issuing an edit (`handleValueChange` up to the upsert): look up the
target row in the current row list; if absent, return unchanged with no
pending edit; otherwise capture the rollback snapshot and apply the
optimistic update. -/
def editStart (rows : List RowState) (cid : String) (field : FieldKey) (value : String)
    (now : Nat) : List RowState × Option Pending :=
  match rows.find? (fun r => r.characterId == cid) with
  | none => (rows, none)
  | some target =>
      let ts := nextGoldenTs field value now target.golden_started_at
      (rows.map (optimisticUpdate cid field value ts),
       some ⟨cid, field, value, target.fields field, target.golden_started_at, ts⟩)

/-- Applying an upsert response (`handleValueChange` after the upsert):
on failure (`some msg`) the matching row has the edited field and the
activation timestamp restored from the snapshot, `isSaving` cleared and
`lastError` set; on success the matching row keeps its current optimistic
values, records the computed timestamp and clears `isSaving`/`lastError`. -/
def editResolve (rows : List RowState) (p : Pending) (failure : Option String) :
    List RowState :=
  match failure with
  | some msg =>
      rows.map (fun r =>
        if r.characterId = p.characterId then
          { r with fields := Function.update r.fields p.field p.previousValue,
                   golden_started_at := p.previousGolden,
                   isSaving := false, lastError := some msg }
        else r)
  | none =>
      rows.map (fun r =>
        if r.characterId = p.characterId then
          { r with golden_started_at := p.nextGolden, isSaving := false, lastError := none }
        else r)

/-- A complete edit whose upsert fails: issue it, then apply the failure
response.  `none` when the target row does not exist. -/
def applyEditFail (rows : List RowState) (cid : String) (field : FieldKey) (value : String)
    (now : Nat) (msg : String) : Option (List RowState) :=
  match editStart rows cid field value now with
  | (rows₁, some p) => some (editResolve rows₁ p (some msg))
  | (_, none) => none

/-- Two overlapping edits on one row: edit A is issued, then edit B is
issued while A is in flight (so B reads the optimistic state), then A's
upsert fails and B's succeeds.  `aFirst` selects which response is applied
first. -/
def twoEditsResolve (rows : List RowState) (cid : String) (fA : FieldKey) (vA : String)
    (tA : Nat) (fB : FieldKey) (vB : String) (tB : Nat) (msg : String) (aFirst : Bool) :
    Option (List RowState) :=
  match editStart rows cid fA vA tA with
  | (_, none) => none
  | (s1, some pA) =>
      match editStart s1 cid fB vB tB with
      | (_, none) => none
      | (s2, some pB) =>
          some (if aFirst then editResolve (editResolve s2 pA (some msg)) pB none
                else editResolve (editResolve s2 pB none) pA (some msg))

/-! ### Timed-flag expiry check

Embedding of the expiry rendering of the `DailyDashboard` in
`src/unnamed/part_001` (lines 256-263): `expiredAt = addDays(startedAt, 7)`,
`daysLeft = differenceInCalendarDays(expiredAt, now)`, and
`isExpired = daysLeft < 0`.  Calendar days are `t / 86400`. -/

/-- `date-fns addDays`, on instants measured in seconds. -/
def addDays (t : Nat) (n : Nat) : Nat := t + n * 86400

/-- The calendar day an instant falls on. -/
def calendarDay (t : Nat) : Nat := t / 86400

/-- `date-fns differenceInCalendarDays`: signed difference of the
calendar days of the two instants. -/
def differenceInCalendarDays (a b : Nat) : Int :=
  (calendarDay a : Int) - (calendarDay b : Int)

/-- The dashboard's expiry check: with an activation timestamp, expired
means the calendar-day difference between `start + 7 days` and now is
negative; without a timestamp nothing is expired. -/
def isExpiredCheck (startedAt : Option Nat) (now : Nat) : Bool :=
  match startedAt with
  | none => false
  | some s => decide (differenceInCalendarDays (addDays s 7) now < 0)

/-! ### Properties of the column ordering -/

/-- Sort key realising the `orderColumns` comparator as a linear order:
preferred names ordered by their list index, then unknown names ordered
lexicographically. -/
def colKey (pref : List Chars) (a : Chars) : Nat ⊕ₗ Chars :=
  if a ∈ pref then toLex (Sum.inl (firstIndex pref a)) else toLex (Sum.inr a)



theorem firstIndex_cons (b : Chars) (rest : List Chars) (a : Chars) :
    firstIndex (b :: rest) a = if b = a then 0 else firstIndex rest a + 1 := rfl

theorem firstIndex_lt_length {l : List Chars} {a : Chars} (h : a ∈ l) :
    firstIndex l a < l.length := by
  induction l with
  | nil => cases h
  | cons b rest ih =>
      rw [firstIndex_cons]
      split
      · simp
      · rename_i hb
        rcases List.mem_cons.mp h with rfl | hr
        · exact absurd rfl hb
        · simpa using ih hr

theorem get?_firstIndex {l : List Chars} {a : Chars} (h : a ∈ l) :
    l.get? (firstIndex l a) = some a := by
  induction l with
  | nil => cases h
  | cons b rest ih =>
      by_cases hb : b = a
      · subst hb
        simp [firstIndex_cons]
      · have hr : a ∈ rest := by
          rcases List.mem_cons.mp h with rfl | hr
          · exact absurd rfl hb
          · exact hr
        have hih := ih hr
        simp only [firstIndex_cons, if_neg hb, List.get?_cons_succ]
        exact hih

theorem firstIndex_eq_of_get? {l : List Chars} {i : Nat} {a : Chars} (hnd : l.Nodup)
    (h : l.get? i = some a) : firstIndex l a = i := by
  induction l generalizing i with
  | nil => simp at h
  | cons b rest ih =>
      match i with
      | 0 =>
          simp only [List.get?_cons_zero, Option.some.injEq] at h
          subst h
          simp [firstIndex_cons]
      | j + 1 =>
          have hr : rest.get? j = some a := by simpa using h
          have hmem : a ∈ rest := List.get?_mem hr
          have hb : b ≠ a := fun hc => (List.nodup_cons.mp hnd).1 (hc ▸ hmem)
          simp [firstIndex_cons, if_neg hb, ih (List.nodup_cons.mp hnd).2 hr]

theorem colLe_iff {pref : List Chars} {a b : Chars} :
    colLe pref a b ↔ colKey pref a ≤ colKey pref b := by
  unfold colLe colCmp colKey jsIndexOf
  by_cases ha : a ∈ pref <;> by_cases hb : b ∈ pref <;>
    simp only [ha, hb, if_true, if_false]
  · have hA : ¬((firstIndex pref a : Int) = -1) := by omega
    have hB : ¬((firstIndex pref b : Int) = -1) := by omega
    rw [if_neg (fun hc => hA hc.1), if_neg hA, if_neg hB, Sum.Lex.inl_le_inl_iff]
    omega
  · have hA : ¬((firstIndex pref a : Int) = -1) := by omega
    rw [if_neg (fun hc => hA hc.1), if_neg hA]
    exact iff_of_true (by omega) (le_of_lt (Sum.Lex.inl_lt_inr _ _))
  · have hB : ¬((firstIndex pref b : Int) = -1) := by omega
    rw [if_neg (fun hc => hB hc.2)]
    exact iff_of_false (by omega) (not_le.mpr (Sum.Lex.inl_lt_inr _ _))
  · rw [if_pos (by constructor <;> trivial), Sum.Lex.inr_le_inr_iff]
    unfold localeCompareInt
    rcases lt_trichotomy a b with h | h | h
    · rw [if_pos h]
      exact iff_of_true (by omega) (le_of_lt h)
    · subst h
      rw [if_neg (lt_irrefl a), if_pos rfl]
      exact iff_of_true (by omega) le_rfl
    · rw [if_neg (not_lt.mpr (le_of_lt h)), if_neg (ne_of_gt h)]
      exact iff_of_false (by omega) (not_le.mpr h)

theorem colKey_inj {pref : List Chars} {a b : Chars}
    (h : colKey pref a = colKey pref b) : a = b := by
  unfold colKey at h
  by_cases ha : a ∈ pref <;> by_cases hb : b ∈ pref
  · rw [if_pos ha, if_pos hb] at h
    have h' : firstIndex pref a = firstIndex pref b := Sum.inl.inj (toLex.injective h)
    have hga := get?_firstIndex ha
    have hgb := get?_firstIndex hb
    rw [h', hgb] at hga
    exact (Option.some.inj hga).symm
  · rw [if_pos ha, if_neg hb] at h
    exact Sum.noConfusion (toLex.injective h)
  · rw [if_neg ha, if_pos hb] at h
    exact Sum.noConfusion (toLex.injective h)
  · rw [if_neg ha, if_neg hb] at h
    exact Sum.inr.inj (toLex.injective h)

instance (pref : List Chars) : IsTotal Chars (colLe pref) :=
  ⟨fun a b => by rw [colLe_iff, colLe_iff]; exact le_total _ _⟩

instance (pref : List Chars) : IsTrans Chars (colLe pref) :=
  ⟨fun _ _ _ hab hbc => by
    rw [colLe_iff] at hab hbc ⊢
    exact le_trans hab hbc⟩

instance (pref : List Chars) : IsAntisymm Chars (colLe pref) :=
  ⟨fun _ _ hab hba => colKey_inj (le_antisymm (colLe_iff.mp hab) (colLe_iff.mp hba))⟩

instance : Nonempty Row := ⟨[]⟩

theorem mem_insertSeen {s : List Chars} {k a : Chars} :
    a ∈ insertSeen s k ↔ a ∈ s ∨ a = k := by
  unfold insertSeen
  split
  · rename_i hk
    constructor
    · exact Or.inl
    · rintro (h | rfl)
      · exact h
      · exact hk
  · simp [List.mem_append]

theorem nodup_insertSeen {s : List Chars} {k : Chars} (h : s.Nodup) :
    (insertSeen s k).Nodup := by
  unfold insertSeen
  split
  · exact h
  · rename_i hk
    simpa [List.nodup_append, h] using hk

theorem mem_foldl_insertSeen {l s : List Chars} {a : Chars} :
    a ∈ l.foldl insertSeen s ↔ a ∈ s ∨ a ∈ l := by
  induction l generalizing s with
  | nil => simp
  | cons k rest ih =>
      rw [List.foldl_cons, ih, mem_insertSeen]
      constructor
      · rintro ((h | rfl) | h)
        · exact Or.inl h
        · exact Or.inr (List.mem_cons_self _ _)
        · exact Or.inr (List.mem_cons_of_mem _ h)
      · rintro (h | h)
        · exact Or.inl (Or.inl h)
        · rcases List.mem_cons.mp h with rfl | h
          · exact Or.inl (Or.inr rfl)
          · exact Or.inr h

theorem nodup_foldl_insertSeen {l s : List Chars} (h : s.Nodup) :
    (l.foldl insertSeen s).Nodup := by
  induction l generalizing s with
  | nil => exact h
  | cons k rest ih => exact ih (nodup_insertSeen h)

theorem mem_collectSeen {rows : List Row} {a : Chars} :
    a ∈ collectSeen rows ↔ ∃ row ∈ rows, a ∈ rowKeys row := by
  suffices h : ∀ s : List Chars,
      a ∈ rows.foldl (fun s row => (rowKeys row).foldl insertSeen s) s ↔
        a ∈ s ∨ ∃ row ∈ rows, a ∈ rowKeys row by
    have := h []
    simpa [collectSeen] using this
  induction rows with
  | nil => simp
  | cons row rest ih =>
      intro s
      rw [List.foldl_cons, ih, mem_foldl_insertSeen]
      constructor
      · rintro ((h | h) | ⟨r, hr, har⟩)
        · exact Or.inl h
        · exact Or.inr ⟨row, List.mem_cons_self _ _, h⟩
        · exact Or.inr ⟨r, List.mem_cons_of_mem _ hr, har⟩
      · rintro (h | ⟨r, hr, har⟩)
        · exact Or.inl (Or.inl h)
        · rcases List.mem_cons.mp hr with rfl | hr
          · exact Or.inl (Or.inr har)
          · exact Or.inr ⟨r, hr, har⟩

theorem nodup_collectSeen (rows : List Row) : (collectSeen rows).Nodup := by
  suffices h : ∀ s : List Chars, s.Nodup →
      (rows.foldl (fun s row => (rowKeys row).foldl insertSeen s) s).Nodup from
    h [] List.nodup_nil
  induction rows with
  | nil => exact fun s hs => hs
  | cons row rest ih => exact fun s hs => ih _ (nodup_foldl_insertSeen hs)

/-- Sortedness of a nodup preference list under its own comparator. -/
theorem pairwise_colLe_self {pref : List Chars} (hnd : pref.Nodup) :
    List.Pairwise (colLe pref) pref := by
  rw [List.pairwise_iff_get]
  intro i j hij
  have hi : pref.get i ∈ pref := List.get_mem _ _ i.isLt
  have hj : pref.get j ∈ pref := List.get_mem _ _ j.isLt
  rw [colLe_iff]
  unfold colKey
  rw [if_pos hi, if_pos hj]
  have hfi : firstIndex pref (pref.get i) = i :=
    firstIndex_eq_of_get? hnd (List.get?_eq_get i.isLt)
  have hfj : firstIndex pref (pref.get j) = j :=
    firstIndex_eq_of_get? hnd (List.get?_eq_get j.isLt)
  rw [hfi, hfj]
  exact Sum.Lex.inl_le_inl_iff.mpr (le_of_lt hij)

/-- C4: the column order depends only on which rows occur, not on their
order or multiplicity: any two row lists with the same members give the
same ordered columns (in particular, any permutation, and any re-run on
identical input). -/
theorem claim_C4 (pref : List Chars) (rows₁ rows₂ : List Row)
    (h : ∀ r, r ∈ rows₁ ↔ r ∈ rows₂) :
    orderColumns pref rows₁ = orderColumns pref rows₂ := by
  have hmem : ∀ a, a ∈ collectSeen rows₁ ↔ a ∈ collectSeen rows₂ := by
    intro a
    rw [mem_collectSeen, mem_collectSeen]
    constructor
    · rintro ⟨row, hr, ha⟩
      exact ⟨row, (h row).mp hr, ha⟩
    · rintro ⟨row, hr, ha⟩
      exact ⟨row, (h row).mpr hr, ha⟩
  have hperm : List.Perm (collectSeen rows₁) (collectSeen rows₂) :=
    (List.perm_ext_iff_of_nodup (nodup_collectSeen rows₁) (nodup_collectSeen rows₂)).mpr hmem
  exact List.eq_of_perm_of_sorted
    ((List.perm_insertionSort _ _).trans (hperm.trans (List.perm_insertionSort _ _).symm))
    (List.sorted_insertionSort _ _) (List.sorted_insertionSort _ _)

/-- Two concrete single-row inputs, in the two possible orders, used to
witness order independence. -/
def rowsW₁ : List Row :=
  [[("zeta".data, CsvValue.str "1".data)], [("action".data, CsvValue.null)]]

/-- The same rows as `rowsW₁`, swapped. -/
def rowsW₂ : List Row :=
  [[("action".data, CsvValue.null)], [("zeta".data, CsvValue.str "1".data)]]

theorem claim_C4_witness :
    (∀ r, r ∈ rowsW₁ ↔ r ∈ rowsW₂) ∧
      orderColumns PREFERRED_ORDER rowsW₁ = orderColumns PREFERRED_ORDER rowsW₂ := by
  have h : ∀ r, r ∈ rowsW₁ ↔ r ∈ rowsW₂ := by
    intro r
    simp only [rowsW₁, rowsW₂, List.mem_cons, List.not_mem_nil, or_false]
    tauto
  exact ⟨h, claim_C4 PREFERRED_ORDER rowsW₁ rowsW₂ h⟩

/-- The full shape of `orderColumns` for a duplicate-free preference list:
the preferred names that occur, in preference order, followed by the other
observed names in alphabetical order. -/
theorem orderColumns_characterisation (pref : List Chars) (hnd : pref.Nodup)
    (rows : List Row) :
    orderColumns pref rows =
      pref.filter (fun c => decide (c ∈ collectSeen rows)) ++
        List.insertionSort (fun a b : Chars => a ≤ b)
          ((collectSeen rows).filter (fun c => decide (c ∉ pref))) := by
  have hseenNd := nodup_collectSeen rows
  have hpart : List.Perm
      ((collectSeen rows).filter (fun c => decide (c ∈ pref)) ++
        (collectSeen rows).filter (fun c => decide (c ∉ pref)))
      (collectSeen rows) := by
    have := List.filter_append_perm (fun c => decide (c ∈ pref)) (collectSeen rows)
    simpa [decide_not] using this
  have hpref_perm : List.Perm
      (pref.filter (fun c => decide (c ∈ collectSeen rows)))
      ((collectSeen rows).filter (fun c => decide (c ∈ pref))) := by
    apply (List.perm_ext_iff_of_nodup (hnd.filter _) (hseenNd.filter _)).mpr
    intro a
    simp only [List.mem_filter, decide_eq_true_eq]
    exact and_comm
  have halpha : List.Perm
      (List.insertionSort (fun a b : Chars => a ≤ b)
        ((collectSeen rows).filter (fun c => decide (c ∉ pref))))
      ((collectSeen rows).filter (fun c => decide (c ∉ pref))) :=
    List.perm_insertionSort _ _
  have hperm : List.Perm (orderColumns pref rows)
      (pref.filter (fun c => decide (c ∈ collectSeen rows)) ++
        List.insertionSort (fun a b : Chars => a ≤ b)
          ((collectSeen rows).filter (fun c => decide (c ∉ pref)))) :=
    (List.perm_insertionSort _ _).trans
      (hpart.symm.trans (List.Perm.append hpref_perm.symm halpha.symm))
  have hsortedA : List.Pairwise (colLe pref)
      (pref.filter (fun c => decide (c ∈ collectSeen rows))) :=
    (pairwise_colLe_self hnd).sublist (List.filter_sublist _)
  have hsortedB : List.Pairwise (colLe pref)
      (List.insertionSort (fun a b : Chars => a ≤ b)
        ((collectSeen rows).filter (fun c => decide (c ∉ pref)))) := by
    have hs := List.sorted_insertionSort (fun a b : Chars => a ≤ b)
      ((collectSeen rows).filter (fun c => decide (c ∉ pref)))
    refine List.Pairwise.imp_of_mem ?_ hs
    intro a b ha hb hab
    have ha' : a ∉ pref := by
      have hmem : a ∈ (collectSeen rows).filter (fun c => decide (c ∉ pref)) :=
        ((List.perm_insertionSort _ _).mem_iff).mp ha
      simpa using (List.mem_filter.mp hmem).2
    have hb' : b ∉ pref := by
      have hmem : b ∈ (collectSeen rows).filter (fun c => decide (c ∉ pref)) :=
        ((List.perm_insertionSort _ _).mem_iff).mp hb
      simpa using (List.mem_filter.mp hmem).2
    rw [colLe_iff]
    unfold colKey
    rw [if_neg ha', if_neg hb']
    exact Sum.Lex.inr_le_inr_iff.mpr hab
  have hcross : ∀ a ∈ pref.filter (fun c => decide (c ∈ collectSeen rows)),
      ∀ b ∈ List.insertionSort (fun a b : Chars => a ≤ b)
        ((collectSeen rows).filter (fun c => decide (c ∉ pref))), colLe pref a b := by
    intro a ha b hb
    have haP : a ∈ pref := (List.mem_filter.mp ha).1
    have hbP : b ∉ pref := by
      have hmem : b ∈ (collectSeen rows).filter (fun c => decide (c ∉ pref)) :=
        ((List.perm_insertionSort _ _).mem_iff).mp hb
      simpa using (List.mem_filter.mp hmem).2
    rw [colLe_iff]
    unfold colKey
    rw [if_pos haP, if_neg hbP]
    exact le_of_lt (Sum.Lex.inl_lt_inr _ _)
  refine List.eq_of_perm_of_sorted hperm (List.sorted_insertionSort _ _) ?_
  show List.Pairwise (colLe pref) _
  rw [List.pairwise_append]
  exact ⟨hsortedA, hsortedB, hcross⟩

/-- C5: `orderColumns` returns exactly the union of observed field names;
the names on the preference list come first in the list's order, and the
names absent from the list follow in alphabetical order.  In particular a
never-before-seen name lands after all preferred names, alphabetically
among the other unknown names.  Stated for both preference lists found in
the source. -/
theorem claim_C5 (rows : List Row) :
    (orderColumns PREFERRED_ORDER rows =
        PREFERRED_ORDER.filter (fun c => decide (c ∈ collectSeen rows)) ++
          List.insertionSort (fun a b : Chars => a ≤ b)
            ((collectSeen rows).filter (fun c => decide (c ∉ PREFERRED_ORDER)))) ∧
      (orderColumns PREFERRED_ORDER_SNAPSHOT rows =
        PREFERRED_ORDER_SNAPSHOT.filter (fun c => decide (c ∈ collectSeen rows)) ++
          List.insertionSort (fun a b : Chars => a ≤ b)
            ((collectSeen rows).filter (fun c => decide (c ∉ PREFERRED_ORDER_SNAPSHOT)))) ∧
      (∀ c, c ∈ orderColumns PREFERRED_ORDER rows ↔ ∃ row ∈ rows, c ∈ rowKeys row) := by
  refine ⟨orderColumns_characterisation _ (by decide) rows,
    orderColumns_characterisation _ (by decide) rows, ?_⟩
  intro c
  exact Iff.trans (List.Perm.mem_iff (List.perm_insertionSort _ _)) mem_collectSeen

/-! ### CSV serialisation lemmas -/

theorem intercalate_single (sep x : Chars) : List.intercalate sep [x] = x := by
  simp [List.intercalate]

theorem intercalate_cons_two (sep x y : Chars) (xs : List Chars) :
    List.intercalate sep (x :: y :: xs) = x ++ sep ++ List.intercalate sep (y :: xs) := by
  simp [List.intercalate, List.intersperse_cons_cons]

theorem mem_intercalate {sep : Chars} {xs : List Chars} {c : Char}
    (h : c ∈ List.intercalate sep xs) : c ∈ sep ∨ ∃ x ∈ xs, c ∈ x := by
  induction xs with
  | nil => simp [List.intercalate] at h
  | cons x rest ih =>
      match rest with
      | [] =>
          rw [intercalate_single] at h
          exact Or.inr ⟨x, by simp, h⟩
      | y :: rest' =>
          rw [intercalate_cons_two] at h
          rcases List.mem_append.mp h with h1 | h2
          · rcases List.mem_append.mp h1 with hx | hs
            · exact Or.inr ⟨x, by simp, hx⟩
            · exact Or.inl hs
          · rcases ih h2 with hs | ⟨z, hz, hcz⟩
            · exact Or.inl hs
            · exact Or.inr ⟨z, List.mem_cons_of_mem _ hz, hcz⟩

theorem splitCRLF_cons_two (c1 c2 : Char) (rest : Chars) :
    splitCRLF (c1 :: c2 :: rest) =
      if c1 = '\r' ∧ c2 = '\n' then [] :: splitCRLF rest
      else
        match splitCRLF (c2 :: rest) with
        | [] => [[c1]]
        | l :: ls => (c1 :: l) :: ls := rfl

theorem splitCRLF_no_nl {x : Chars} (h : '\n' ∉ x) : splitCRLF x = [x] := by
  induction x with
  | nil => rfl
  | cons c rest ih =>
      match rest with
      | [] => rfl
      | c2 :: rest' =>
          have hc2 : c2 ≠ '\n' := by
            intro hc
            exact h (by simp [hc])
          have hrest : '\n' ∉ c2 :: rest' := by
            intro hc
            exact h (List.mem_cons_of_mem _ hc)
          rw [splitCRLF_cons_two, if_neg (fun hc => hc2 hc.2), ih hrest]

theorem splitCRLF_append {x rest : Chars} (h : '\n' ∉ x) :
    splitCRLF (x ++ '\r' :: '\n' :: rest) = x :: splitCRLF rest := by
  induction x with
  | nil =>
      show splitCRLF ('\r' :: '\n' :: rest) = [] :: splitCRLF rest
      rw [splitCRLF_cons_two, if_pos ⟨rfl, rfl⟩]
  | cons a x' ih =>
      have hx' : '\n' ∉ x' := fun hc => h (List.mem_cons_of_mem _ hc)
      match x' with
      | [] =>
          show splitCRLF (a :: '\r' :: '\n' :: rest) = [a] :: splitCRLF rest
          rw [splitCRLF_cons_two, if_neg (by simp)]
          rw [show splitCRLF ('\r' :: '\n' :: rest) = [] :: splitCRLF rest from
            by rw [splitCRLF_cons_two, if_pos ⟨rfl, rfl⟩]]
      | b :: x'' =>
          have hb : b ≠ '\n' := by
            intro hc
            exact h (List.mem_cons_of_mem _ (by simp [hc]))
          show splitCRLF (a :: b :: (x'' ++ '\r' :: '\n' :: rest)) =
            (a :: b :: x'') :: splitCRLF rest
          rw [splitCRLF_cons_two, if_neg (fun hc => hb hc.2)]
          have := ih hx'
          rw [show (b :: x'') ++ '\r' :: '\n' :: rest = b :: (x'' ++ '\r' :: '\n' :: rest) from
            rfl] at this
          rw [this]

theorem splitCRLF_intercalate {ls : List Chars} (h : ∀ l ∈ ls, '\n' ∉ l) (hne : ls ≠ []) :
    splitCRLF (List.intercalate ['\r', '\n'] ls) = ls := by
  induction ls with
  | nil => exact absurd rfl hne
  | cons x rest ih =>
      match rest with
      | [] =>
          rw [intercalate_single]
          exact splitCRLF_no_nl (h x (by simp))
      | y :: rest' =>
          rw [intercalate_cons_two, List.append_assoc]
          have hx : '\n' ∉ x := h x (by simp)
          rw [show ['\r', '\n'] ++ List.intercalate ['\r', '\n'] (y :: rest') =
            '\r' :: '\n' :: List.intercalate ['\r', '\n'] (y :: rest') from rfl]
          rw [splitCRLF_append hx]
          rw [ih (fun l hl => h l (List.mem_cons_of_mem _ hl)) (by simp)]

theorem doubleQuotes_of_no_quote {s : Chars} (h : '"' ∉ s) : doubleQuotes s = s := by
  induction s with
  | nil => rfl
  | cons c rest ih =>
      have hc : c ≠ '"' := fun hc => h (by simp [hc])
      unfold doubleQuotes
      rw [if_neg hc, ih (fun hm => h (List.mem_cons_of_mem _ hm))]

theorem needsQuoting_eq_false {s : Chars} (h : SafeChars s) : needsQuoting s = false := by
  rw [needsQuoting, List.any_eq_false]
  intro c hc
  rcases h c hc with ⟨h1, h2, h3⟩
  simp [h1, h2, h3]

theorem escapeCsvValue_str (s : Chars) :
    escapeCsvValue (.str s) =
      if needsQuoting s then '"' :: (doubleQuotes s ++ ['"']) else doubleQuotes s := rfl

theorem escapeCsvValue_safe {s : Chars} (h : SafeChars s) : escapeCsvValue (.str s) = s := by
  rw [escapeCsvValue_str, needsQuoting_eq_false h]
  simp only [Bool.false_eq_true, if_false]
  exact doubleQuotes_of_no_quote (fun hq => (h '"' hq).2.1 rfl)

theorem unquoteField_cons (c : Char) (rest : Chars) :
    unquoteField (c :: rest) =
      if c = '"' ∧ rest.getLast? = some '"' then undouble rest.dropLast
      else c :: rest := rfl

theorem unquoteField_safe {f : Chars} (h : '"' ∉ f) : unquoteField f = f := by
  match f with
  | [] => rfl
  | c :: rest =>
      have hc : c ≠ '"' := fun hceq => h (by simp [hceq])
      rw [unquoteField_cons, if_neg (fun hcontra => hc hcontra.1)]

theorem getVal_cons_self (k : Chars) (v : CsvValue) (rest : Row) :
    getVal ((k, v) :: rest) k = v := by
  simp [getVal, List.lookup]

theorem getVal_cons_ne {k c : Chars} (hne : k ≠ c) (v : CsvValue) (rest : Row) :
    getVal ((k, v) :: rest) c = getVal rest c := by
  have hbeq : (c == k) = false := beq_eq_false_iff_ne.mpr (fun h => hne h.symm)
  simp [getVal, List.lookup, hbeq]

theorem map_getVal {row : Row} (hnd : (rowKeys row).Nodup) :
    (rowKeys row).map (getVal row) = row.map Prod.snd := by
  induction row with
  | nil => rfl
  | cons p rest ih =>
      obtain ⟨k, v⟩ := p
      have hk : k ∉ rowKeys rest := (List.nodup_cons.mp hnd).1
      have hrest : (rowKeys rest).Nodup := (List.nodup_cons.mp hnd).2
      show (k :: rowKeys rest).map (getVal ((k, v) :: rest)) = v :: rest.map Prod.snd
      rw [List.map_cons, getVal_cons_self]
      congr 1
      rw [List.map_congr_left
        (fun c hc => getVal_cons_ne (fun he => hk (by rw [he]; exact hc)) v rest)]
      exact ih hrest

theorem zip_rowKeys_snd (row : Row) : (rowKeys row).zip (row.map Prod.snd) = row := by
  induction row with
  | nil => rfl
  | cons p rest ih =>
      obtain ⟨k, v⟩ := p
      show (k :: rowKeys rest).zip (v :: rest.map Prod.snd) = (k, v) :: rest
      rw [List.zip_cons_cons, ih]

theorem foldl_insertSeen_of_mem (l s : List Chars) (h : ∀ k ∈ l, k ∈ s) :
    l.foldl insertSeen s = s := by
  induction l with
  | nil => rfl
  | cons k rest ih =>
      rw [List.foldl_cons, show insertSeen s k = s from if_pos (h k (by simp))]
      exact ih (fun k' hk' => h k' (List.mem_cons_of_mem _ hk'))

theorem foldl_insertSeen_of_nodup (s l : List Chars) (h : (s ++ l).Nodup) :
    l.foldl insertSeen s = s ++ l := by
  induction l generalizing s with
  | nil => simp
  | cons k rest ih =>
      have hk : k ∉ s := by
        have hd := List.disjoint_of_nodup_append h
        exact fun hks => hd hks (by simp)
      rw [List.foldl_cons, show insertSeen s k = s ++ [k] from if_neg hk]
      have happ : (s ++ [k]) ++ rest = s ++ k :: rest := by simp
      have h' : ((s ++ [k]) ++ rest).Nodup := by rw [happ]; exact h
      rw [ih (s ++ [k]) h', happ]

theorem collectSeen_uniform {rows : List Row} {cols : List Chars} (hne : rows ≠ [])
    (hnd : cols.Nodup) (hkeys : ∀ row ∈ rows, rowKeys row = cols) :
    collectSeen rows = cols := by
  match rows with
  | [] => exact absurd rfl hne
  | row₀ :: rest =>
      show (row₀ :: rest).foldl (fun s row => (rowKeys row).foldl insertSeen s) [] = cols
      rw [List.foldl_cons]
      have h₀ : (rowKeys row₀).foldl insertSeen [] = cols := by
        rw [hkeys row₀ (by simp)]
        have := foldl_insertSeen_of_nodup [] cols (by simpa using hnd)
        simpa using this
      rw [h₀]
      have hrest : ∀ (rs : List Row), (∀ row ∈ rs, rowKeys row = cols) →
          rs.foldl (fun s row => (rowKeys row).foldl insertSeen s) cols = cols := by
        intro rs
        induction rs with
        | nil => intro _; rfl
        | cons r rs' ih =>
            intro hall
            rw [List.foldl_cons,
              foldl_insertSeen_of_mem _ _ (fun k hk => by
                rw [hall r (by simp)] at hk; exact hk)]
            exact ih (fun row hrow => hall row (List.mem_cons_of_mem _ hrow))
      exact hrest rest (fun row hrow => hkeys row (List.mem_cons_of_mem _ hrow))

theorem map_id_of_mem {α : Type} {l : List α} {f : α → α} (h : ∀ a ∈ l, f a = a) :
    l.map f = l := by
  induction l with
  | nil => rfl
  | cons a rest ih =>
      rw [List.map_cons, h a (by simp), ih (fun b hb => h b (List.mem_cons_of_mem _ hb))]

theorem toCsv_of_ne_nil {rows : List Row} (hne : rows ≠ []) :
    toCsv rows =
      List.intercalate ['\r', '\n']
        (List.intercalate [','] (collectSeen rows) ::
          rows.map (fun row =>
            List.intercalate [',']
              ((collectSeen rows).map (fun c => escapeCsvValue (getVal row c))))) := by
  unfold toCsv
  rw [if_neg hne]

theorem parseCsv_eq {doc : Chars} {hd : Chars} {tl : List Chars} (hne : doc ≠ [])
    (hsplit : splitCRLF doc = hd :: tl) :
    parseCsv doc =
      tl.map (fun line =>
        ((hd.splitOn ',').map unquoteField).zip
          (((line.splitOn ',').map unquoteField).map CsvValue.str)) := by
  unfold parseCsv
  rw [if_neg hne, hsplit]

/-- C7 (amended): the CSV export round-trips through a standard CSV
parser for every non-empty table whose rows all carry the same non-empty,
duplicate-free column sequence, whose column names are CSV-safe, and whose
values are all CSV-safe text. -/
theorem claim_C7 (rows : List Row) (cols : List Chars)
    (hne : rows ≠ []) (hcne : cols ≠ []) (hnd : cols.Nodup)
    (hkeysafe : ∀ c ∈ cols, SafeChars c)
    (hkeys : ∀ row ∈ rows, rowKeys row = cols)
    (hvals : ∀ row ∈ rows, ∀ p ∈ row, ValIsSafe p.2) :
    parseCsv (toCsv rows) = rows := by
  have hcols : collectSeen rows = cols := collectSeen_uniform hne hnd hkeys
  have hsafeval : ∀ row ∈ rows, ∀ p ∈ row,
      SafeChars (escapeCsvValue p.2) ∧ CsvValue.str (escapeCsvValue p.2) = p.2 := by
    intro row hrow p hp
    have hv := hvals row hrow p hp
    cases hps : p.2 with
    | null =>
        rw [hps] at hv
        exact False.elim hv
    | str s =>
        rw [hps] at hv
        have hv' : SafeChars s := hv
        rw [escapeCsvValue_safe hv']
        exact ⟨hv', rfl⟩
  have hfields : ∀ row ∈ rows,
      cols.map (fun c => escapeCsvValue (getVal row c)) =
        row.map (fun p => escapeCsvValue p.2) := by
    intro row hrow
    have hk := hkeys row hrow
    have h1 : cols.map (fun c => escapeCsvValue (getVal row c)) =
        ((rowKeys row).map (getVal row)).map escapeCsvValue := by
      rw [hk, List.map_map]
      rfl
    have h2 : ((rowKeys row).map (getVal row)).map escapeCsvValue =
        (row.map Prod.snd).map escapeCsvValue := by
      rw [map_getVal (by rw [hk]; exact hnd)]
    have h3 : (row.map Prod.snd).map escapeCsvValue =
        row.map (fun p => escapeCsvValue p.2) := by
      rw [List.map_map]
      rfl
    exact h1.trans (h2.trans h3)
  have hrowne : ∀ row ∈ rows, row ≠ [] := by
    intro row hrow h0
    apply hcne
    rw [← hkeys row hrow, h0]
    rfl
  have hheader_nl : '\n' ∉ List.intercalate [','] cols := by
    intro hmem
    rcases mem_intercalate hmem with hs | ⟨x, hx, hcx⟩
    · simp at hs
    · exact (hkeysafe x hx '\n' hcx).2.2 rfl
  have hline_nl : ∀ row ∈ rows,
      '\n' ∉ List.intercalate [','] (cols.map (fun c => escapeCsvValue (getVal row c))) := by
    intro row hrow hmem
    rw [hfields row hrow] at hmem
    rcases mem_intercalate hmem with hs | ⟨x, hx, hcx⟩
    · simp at hs
    · rcases List.mem_map.mp hx with ⟨p, hp, rfl⟩
      exact ((hsafeval row hrow p hp).1 '\n' hcx).2.2 rfl
  have hsplit : splitCRLF (toCsv rows) =
      List.intercalate [','] (collectSeen rows) ::
        rows.map (fun row =>
          List.intercalate [',']
            ((collectSeen rows).map (fun c => escapeCsvValue (getVal row c)))) := by
    rw [toCsv_of_ne_nil hne]
    apply splitCRLF_intercalate
    · intro l hl
      rcases List.mem_cons.mp hl with rfl | hl'
      · rw [hcols]; exact hheader_nl
      · rcases List.mem_map.mp hl' with ⟨row, hrow, rfl⟩
        rw [hcols]
        exact hline_nl row hrow
    · simp
  have hdocne : toCsv rows ≠ [] := by
    intro h0
    rw [h0] at hsplit
    have h1 : (([] : Chars) :: ([] : List Chars)) =
        List.intercalate [','] (collectSeen rows) ::
          rows.map (fun row =>
            List.intercalate [',']
              ((collectSeen rows).map (fun c => escapeCsvValue (getVal row c)))) := hsplit
    have h2 := (List.cons.inj h1).2
    exact hne (List.map_eq_nil_iff.mp h2.symm)
  rw [parseCsv_eq hdocne hsplit, hcols]
  have hhc : ((List.intercalate [','] cols).splitOn ',').map unquoteField = cols := by
    rw [List.splitOn_intercalate cols ',' (fun l hl hc => (hkeysafe l hl ',' hc).1 rfl) hcne]
    exact map_id_of_mem
      (fun c hc => unquoteField_safe (fun hq => (hkeysafe c hc '"' hq).2.1 rfl))
  rw [List.map_map]
  have hall : ∀ row ∈ rows,
      (((List.intercalate [','] cols).splitOn ',').map unquoteField).zip
        ((((List.intercalate [',']
          (cols.map (fun c => escapeCsvValue (getVal row c)))).splitOn ',').map
            unquoteField).map CsvValue.str) = row := by
    intro row hrow
    rw [hhc, hfields row hrow]
    have hfne : row.map (fun p => escapeCsvValue p.2) ≠ [] := by
      intro h0
      exact hrowne row hrow (List.map_eq_nil_iff.mp h0)
    have hsplitline :
        List.splitOn ',' ([','].intercalate (row.map (fun p => escapeCsvValue p.2))) =
          row.map (fun p => escapeCsvValue p.2) :=
      List.splitOn_intercalate (row.map (fun p => escapeCsvValue p.2)) ','
        (fun l hl => by
          rcases List.mem_map.mp hl with ⟨p, hp, rfl⟩
          exact fun hc => ((hsafeval row hrow p hp).1 ',' hc).1 rfl)
        hfne
    rw [hsplitline]
    have hunq : (row.map (fun p => escapeCsvValue p.2)).map unquoteField =
        row.map (fun p => escapeCsvValue p.2) :=
      map_id_of_mem (fun l hl => by
        rcases List.mem_map.mp hl with ⟨p, hp, rfl⟩
        exact unquoteField_safe (fun hq => ((hsafeval row hrow p hp).1 '"' hq).2.1 rfl))
    rw [hunq, List.map_map]
    have hvals' : row.map (CsvValue.str ∘ fun p => escapeCsvValue p.2) = row.map Prod.snd :=
      List.map_congr_left (fun p hp => (hsafeval row hrow p hp).2)
    rw [hvals', ← hkeys row hrow]
    exact zip_rowKeys_snd row
  exact (List.map_congr_left hall).trans (List.map_id rows)

/-! ### CSV escaping against the specification's wording -/

/-- Rendering of one CSV field as the specification words it: absent and
null values render empty, any value whose text contains a comma, quote or
newline is wrapped in double quotes with every internal quote doubled, and
any other value renders as its plain text. -/
def csvEscapeSpec : CsvValue → Chars
  | .null => []
  | .str s =>
      if ',' ∈ s ∨ '"' ∈ s ∨ '\n' ∈ s then
        '"' :: (s.flatMap (fun c => if c = '"' then ['"', '"'] else [c]) ++ ['"'])
      else s

theorem csvEscapeSpec_str (s : Chars) :
    csvEscapeSpec (.str s) =
      if ',' ∈ s ∨ '"' ∈ s ∨ '\n' ∈ s then
        '"' :: (s.flatMap (fun c => if c = '"' then ['"', '"'] else [c]) ++ ['"'])
      else s := rfl

theorem doubleQuotes_eq_flatMap (s : Chars) :
    doubleQuotes s = s.flatMap (fun c => if c = '"' then ['"', '"'] else [c]) := by
  induction s with
  | nil => rfl
  | cons c rest ih =>
      unfold doubleQuotes
      rw [List.flatMap_cons]
      by_cases hc : c = '"'
      · rw [if_pos hc, if_pos hc, ih]
        subst hc
        rfl
      · rw [if_neg hc, if_neg hc, ih]
        rfl

theorem needsQuoting_iff {s : Chars} :
    needsQuoting s = true ↔ (',' ∈ s ∨ '"' ∈ s ∨ '\n' ∈ s) := by
  rw [needsQuoting, List.any_eq_true]
  constructor
  · rintro ⟨c, hc, hp⟩
    simp only [Bool.or_eq_true, beq_iff_eq] at hp
    rcases hp with (rfl | rfl) | rfl
    · exact Or.inr (Or.inl hc)
    · exact Or.inl hc
    · exact Or.inr (Or.inr hc)
  · rintro (h | h | h)
    · exact ⟨',', h, by simp⟩
    · exact ⟨'"', h, by simp⟩
    · exact ⟨'\n', h, by simp⟩

/-- C6: `escapeCsvValue` realises exactly the specified field rendering,
and the specification's concrete example escapes as stated. -/
theorem claim_C6 :
    (∀ v, escapeCsvValue v = csvEscapeSpec v) ∧
      escapeCsvValue (CsvValue.str ("He said \"hi\", ok".data)) =
        ("\"He said \"\"hi\"\", ok\"".data) := by
  constructor
  · intro v
    cases v with
    | null => rfl
    | str s =>
        rw [escapeCsvValue_str, csvEscapeSpec_str]
        by_cases h : ',' ∈ s ∨ '"' ∈ s ∨ '\n' ∈ s
        · rw [if_pos h, if_pos (needsQuoting_iff.mpr h), doubleQuotes_eq_flatMap]
        · rw [if_neg h, if_neg (fun ht => h (needsQuoting_iff.mp ht))]
          exact doubleQuotes_of_no_quote (fun hq => h (Or.inr (Or.inl hq)))
  · decide

/-! ### Round-trip witness and counterexample -/

/-- A ragged two-row set: each row lacks the other's column. -/
def rowsRagged : List Row :=
  [[("a".data, CsvValue.str "1".data)], [("b".data, CsvValue.str "2".data)]]

theorem claim_C7_counterexample :
    (∀ row ∈ rowsRagged, ∀ p ∈ row, ValTextSafe p.2) ∧
      parseCsv (toCsv rowsRagged) ≠ rowsRagged := by
  constructor
  · decide
  · decide

/-- A uniform two-row, two-column table used to witness the round-trip. -/
def rowsUniform : List Row :=
  [[("b".data, CsvValue.str "x".data), ("a".data, CsvValue.str "".data)],
   [("b".data, CsvValue.str "y z".data), ("a".data, CsvValue.str "w".data)]]

/-- The shared column sequence of `rowsUniform`. -/
def colsUniform : List Chars := ["b".data, "a".data]

theorem claim_C7_witness :
    rowsUniform ≠ [] ∧ colsUniform ≠ [] ∧ colsUniform.Nodup ∧
      (∀ c ∈ colsUniform, SafeChars c) ∧
      (∀ row ∈ rowsUniform, rowKeys row = colsUniform) ∧
      (∀ row ∈ rowsUniform, ∀ p ∈ row, ValIsSafe p.2) ∧
      parseCsv (toCsv rowsUniform) = rowsUniform := by
  refine ⟨by decide, by decide, by decide, by decide, by decide, by decide, ?_⟩
  exact claim_C7 rowsUniform colsUniform (by decide) (by decide) (by decide)
    (by decide) (by decide) (by decide)

/-! ### The export header line -/

/-- A single row whose keys arrive in non-alphabetical order and match no
preference list entry. -/
def rowsBA : List Row :=
  [[("b".data, CsvValue.str "1".data), ("a".data, CsvValue.str "2".data)]]

theorem claim_C8_counterexample :
    firstLine (toCsv rowsBA) ≠
        List.intercalate [','] (orderColumns PREFERRED_ORDER rowsBA) ∧
      firstLine (toCsv rowsBA) ≠
        List.intercalate [','] (orderColumns PREFERRED_ORDER_SNAPSHOT rowsBA) := by
  constructor
  · decide
  · decide

/-- C8 (amended): for a non-empty row set whose keys contain no newline,
the first line of the CSV document is the comma-joined column names in
first-seen (set-insertion) order — which is a permutation of, but not in
general equal to, the preference-sorted order `orderColumns` yields. -/
theorem claim_C8 (pref : List Chars) (rows : List Row) (hne : rows ≠ [])
    (hkeys_nl : ∀ row ∈ rows, ∀ k ∈ rowKeys row, '\n' ∉ k) :
    firstLine (toCsv rows) = List.intercalate [','] (collectSeen rows) ∧
      List.Perm (collectSeen rows) (orderColumns pref rows) := by
  constructor
  · have hheader_nl : '\n' ∉ List.intercalate [','] (collectSeen rows) := by
      intro hmem
      rcases mem_intercalate hmem with hs | ⟨x, hx, hcx⟩
      · simp at hs
      · rcases mem_collectSeen.mp hx with ⟨row, hrow, hk⟩
        exact hkeys_nl row hrow x hk hcx
    rw [toCsv_of_ne_nil hne]
    match hrows : rows with
    | [] => exact absurd rfl hne
    | r0 :: rest =>
        rw [List.map_cons, intercalate_cons_two, List.append_assoc]
        rw [show ['\r', '\n'] ++
          List.intercalate ['\r', '\n']
            (List.intercalate [','] ((collectSeen (r0 :: rest)).map
                (fun c => escapeCsvValue (getVal r0 c))) ::
              rest.map (fun row =>
                List.intercalate [','] ((collectSeen (r0 :: rest)).map
                  (fun c => escapeCsvValue (getVal row c))))) =
          '\r' :: '\n' ::
            List.intercalate ['\r', '\n']
              (List.intercalate [','] ((collectSeen (r0 :: rest)).map
                  (fun c => escapeCsvValue (getVal r0 c))) ::
                rest.map (fun row =>
                  List.intercalate [','] ((collectSeen (r0 :: rest)).map
                    (fun c => escapeCsvValue (getVal row c))))) from rfl]
        rw [firstLine, splitCRLF_append (hrows ▸ hheader_nl)]
        rfl
  · exact (List.perm_insertionSort _ _).symm

theorem claim_C8_witness :
    rowsBA ≠ [] ∧ (∀ row ∈ rowsBA, ∀ k ∈ rowKeys row, '\n' ∉ k) ∧
      (firstLine (toCsv rowsBA) = List.intercalate [','] (collectSeen rowsBA) ∧
        List.Perm (collectSeen rowsBA) (orderColumns PREFERRED_ORDER rowsBA)) := by
  refine ⟨by decide, by decide, ?_⟩
  exact claim_C8 PREFERRED_ORDER rowsBA (by decide) (by decide)

/-! ### Date-range validation and the empty export -/

/-- C9 (amended): with both bounds present and the lower bound after the
upper one, the client-side fetch and the client-side export trigger fail
with the invalid-range message before any remote call; the server-side
export route, which only format-checks its date parameters, still issues
the remote read. -/
theorem claim_C9 (a b : Nat) (remote : Except String (List Row))
    (resp : Except String Chars) (h : a > b) :
    loadHistory (some a) (some b) remote = (some invalidRangeMsg, [], false) ∧
      exportClick (some a) (some b) resp = (some invalidRangeMsg, false) ∧
      (exportGET (some a) (some b) remote).2 = true := by
  refine ⟨?_, ?_, ?_⟩
  · show (if a > b then (some invalidRangeMsg, ([] : List Row), false)
      else runFetch remote) = (some invalidRangeMsg, [], false)
    rw [if_pos h]
  · show (if a > b then (some invalidRangeMsg, false)
      else runExportClick resp) = (some invalidRangeMsg, false)
    rw [if_pos h]
  · cases remote <;> rfl

theorem claim_C9_counterexample :
    (19853 > 19844) ∧
      exportGET (some 19853) (some 19844) (Except.ok []) = (ExportResult.csv [], true) := by
  exact ⟨by decide, rfl⟩

theorem claim_C9_witness :
    (19853 > 19844) ∧
      (loadHistory (some 19853) (some 19844) (Except.ok []) =
          (some invalidRangeMsg, [], false) ∧
        exportClick (some 19853) (some 19844) (Except.ok []) =
          (some invalidRangeMsg, false) ∧
        (exportGET (some 19853) (some 19844) (Except.ok [])).2 = true) := by
  refine ⟨by decide, ?_⟩
  exact claim_C9 19853 19844 (Except.ok []) (Except.ok []) (by decide)

/-- C10: an export whose filtered fetch returns zero rows is a success
response with an empty document body — no header line is emitted (`toCsv`
of no rows is the empty document as well). -/
theorem claim_C10 (s e : Option Nat) :
    exportGET s e (Except.ok []) = (ExportResult.csv [], true) ∧ toCsv [] = [] := by
  exact ⟨rfl, rfl⟩

/-! ### State synchronizer: rollback on failure -/

theorem optimisticUpdate_characterId (cid : String) (field : FieldKey) (value : String)
    (ts : Option Nat) (r : RowState) :
    (optimisticUpdate cid field value ts r).characterId = r.characterId := by
  unfold optimisticUpdate
  split <;> rfl

theorem row_eq_of_find? {rows : List RowState} {cid : String} {target r : RowState}
    (hnd : (rows.map RowState.characterId).Nodup)
    (hfind : rows.find? (fun r => r.characterId == cid) = some target)
    (hr : r ∈ rows) (hcid : r.characterId = cid) : r = target := by
  have htmem : target ∈ rows := List.mem_of_find?_eq_some hfind
  have htcid : target.characterId = cid := by
    have := List.find?_some hfind
    simpa using this
  exact List.inj_on_of_nodup_map hnd hr htmem (by rw [hcid, htcid])

theorem editStart_eq (target : RowState) {rows : List RowState} {cid : String}
    {field : FieldKey} {value : String} {now : Nat}
    (hfind : rows.find? (fun r => r.characterId == cid) = some target) :
    editStart rows cid field value now =
      (rows.map (optimisticUpdate cid field value
          (nextGoldenTs field value now target.golden_started_at)),
        some ⟨cid, field, value, target.fields field, target.golden_started_at,
          nextGoldenTs field value now target.golden_started_at⟩) := by
  unfold editStart
  rw [hfind]

theorem applyEditFail_eq (target : RowState) {rows : List RowState} {cid : String}
    {field : FieldKey} {value : String} {now : Nat} {msg : String}
    (hfind : rows.find? (fun r => r.characterId == cid) = some target) :
    applyEditFail rows cid field value now msg =
      some (editResolve
        (rows.map (optimisticUpdate cid field value
          (nextGoldenTs field value now target.golden_started_at)))
        ⟨cid, field, value, target.fields field, target.golden_started_at,
          nextGoldenTs field value now target.golden_started_at⟩
        (some msg)) := by
  unfold applyEditFail
  rw [editStart_eq target hfind]

theorem editResolve_fail (rows : List RowState) (p : Pending) (msg : String) :
    editResolve rows p (some msg) =
      rows.map (fun r =>
        if r.characterId = p.characterId then
          { r with fields := Function.update r.fields p.field p.previousValue,
                   golden_started_at := p.previousGolden,
                   isSaving := false, lastError := some msg }
        else r) := rfl

theorem editResolve_ok (rows : List RowState) (p : Pending) :
    editResolve rows p none =
      rows.map (fun r =>
        if r.characterId = p.characterId then
          { r with golden_started_at := p.nextGolden, isSaving := false, lastError := none }
        else r) := rfl

/-- The optimistic `setRows` of `upsertFor` (the other dashboard variant
in `src/unnamed/part_001`, lines 155-167), for an edit of `field` to
`value` issued at `now`: the select handlers patch the edited field and,
for the timed-flag field, an activation timestamp computed at the call
site; the matching row gets the patch plus `isSaving := true` and
`lastError := none`. -/
def upsertForOptimistic (cid : String) (field : FieldKey) (value : String) (now : Nat)
    (r : RowState) : RowState :=
  if r.characterId = cid then
    { r with fields := Function.update r.fields field value,
             golden_started_at :=
               if field = .golden_goose then (if value = "Active" then some now else none)
               else r.golden_started_at,
             isSaving := true, lastError := none }
  else r

/-- The `catch` handler of `upsertFor` (`src/unnamed/part_001`, lines
211-224): the matching row keeps its current (optimistic) values and only
gets `isSaving := false` and the error message — no snapshot is captured
and nothing is restored. -/
def upsertForFail (rows : List RowState) (cid : String) (msg : String) : List RowState :=
  rows.map (fun r =>
    if r.characterId = cid then { r with isSaving := false, lastError := some msg }
    else r)

/-- A complete `upsertFor` edit whose upsert fails: the optimistic patch
followed by the `catch` handler. -/
def upsertForEditFail (rows : List RowState) (cid : String) (field : FieldKey)
    (value : String) (now : Nat) (msg : String) : List RowState :=
  upsertForFail (rows.map (upsertForOptimistic cid field value now)) cid msg

/-- C1 (amended): the two dashboard variants disagree on failure.  In the
`handleValueChange` variant a failed edit leaves every row exactly as it
was before the edit, except that the edited row has `isSaving` cleared
and `lastError` set to the (non-empty) failure message: the edited field
and the activation timestamp are restored from the snapshot and no
partial update survives.  In the `upsertFor` variant the failure handler
captures no snapshot: the edited row keeps the optimistic field value and
timestamp, and only `isSaving` and `lastError` change. -/
theorem claim_C1 (rows : List RowState) (cid : String) (field : FieldKey) (value : String)
    (now : Nat) (msg : String) (target : RowState)
    (hnd : (rows.map RowState.characterId).Nodup)
    (hfind : rows.find? (fun r => r.characterId == cid) = some target)
    (hmsg : msg ≠ "") :
    (applyEditFail rows cid field value now msg =
      some (rows.map (fun r =>
        if r.characterId = cid then { r with isSaving := false, lastError := some msg }
        else r)) ∧ msg ≠ "") ∧
      upsertForEditFail rows cid field value now msg =
        rows.map (fun r =>
          if r.characterId = cid then
            { r with fields := Function.update r.fields field value,
                     golden_started_at :=
                       if field = .golden_goose then
                         (if value = "Active" then some now else none)
                       else r.golden_started_at,
                     isSaving := false, lastError := some msg }
          else r) := by
  refine ⟨⟨?_, hmsg⟩, ?_⟩
  · rw [applyEditFail_eq target hfind]
    congr 1
    rw [editResolve_fail, List.map_map]
    apply List.map_congr_left
    intro r hr
    by_cases hcid : r.characterId = cid
    · have hrt : r = target := row_eq_of_find? hnd hfind hr hcid
      subst hrt
      simp [Function.comp, optimisticUpdate, if_pos hcid, Function.update_idem,
        Function.update_eq_self]
    · simp [Function.comp, optimisticUpdate, if_neg hcid]
  · unfold upsertForEditFail upsertForFail
    rw [List.map_map]
    apply List.map_congr_left
    intro r _
    by_cases hcid : r.characterId = cid
    · simp [Function.comp, upsertForOptimistic, if_pos hcid]
    · simp [Function.comp, upsertForOptimistic, if_neg hcid]

/-- A concrete dashboard row used in witnesses. -/
def rowW1 : RowState :=
  { characterId := "c1", name := "Alice", fields := fun _ => "Not Started",
    golden_started_at := none, isSaving := false, lastError := none }

/-- A second concrete dashboard row used in witnesses. -/
def rowW2 : RowState :=
  { characterId := "c2", name := "Bob", fields := fun _ => "Cleared",
    golden_started_at := some 100, isSaving := false, lastError := none }

/-- A two-row dashboard state used in witnesses. -/
def rowsDash : List RowState := [rowW1, rowW2]

theorem claim_C1_counterexample :
    upsertForEditFail rowsDash "c1" FieldKey.daily "Completed" 5 "boom" =
        [{ rowW1 with fields := Function.update rowW1.fields FieldKey.daily "Completed",
                      isSaving := false, lastError := some "boom" }, rowW2] ∧
      Function.update rowW1.fields FieldKey.daily "Completed" FieldKey.daily = "Completed" ∧
      rowW1.fields FieldKey.daily = "Not Started" := by
  refine ⟨?_, ?_, ?_⟩ <;> decide

theorem claim_C1_witness :
    ((rowsDash.map RowState.characterId).Nodup ∧
      rowsDash.find? (fun r => r.characterId == "c1") = some rowW1 ∧
      ("boom" : String) ≠ "") ∧
      ((applyEditFail rowsDash "c1" FieldKey.daily "Completed" 5 "boom" =
        some (rowsDash.map (fun r =>
          if r.characterId = "c1" then { r with isSaving := false, lastError := some "boom" }
          else r)) ∧ ("boom" : String) ≠ "") ∧
        upsertForEditFail rowsDash "c1" FieldKey.daily "Completed" 5 "boom" =
          rowsDash.map (fun r =>
            if r.characterId = "c1" then
              { r with fields := Function.update r.fields FieldKey.daily "Completed",
                       golden_started_at :=
                         if FieldKey.daily = FieldKey.golden_goose then
                           (if "Completed" = "Active" then some 5 else none)
                         else r.golden_started_at,
                       isSaving := false, lastError := some "boom" }
            else r)) := by
  refine ⟨⟨by decide, by decide, by decide⟩, ?_⟩
  exact claim_C1 rowsDash "c1" FieldKey.daily "Completed" 5 "boom" rowW1
    (by decide) (by decide) (by decide)

/-- C2: two overlapping edits on distinct fields of one row, where the
first edit's upsert fails and the second's succeeds, leave the second
field at its submitted value and the first field at its pre-first-edit
value — whichever order the two responses are applied in. -/
theorem claim_C2 (rows : List RowState) (cid : String) (fA fB : FieldKey) (vA vB : String)
    (tA tB : Nat) (msg : String) (target : RowState)
    (hnd : (rows.map RowState.characterId).Nodup)
    (hfind : rows.find? (fun r => r.characterId == cid) = some target)
    (hAB : fA ≠ fB) :
    ∀ aFirst : Bool, ∃ final,
      twoEditsResolve rows cid fA vA tA fB vB tB msg aFirst = some final ∧
        ∀ r ∈ final, r.characterId = cid →
          r.fields fB = vB ∧ r.fields fA = target.fields fA := by
  intro aFirst
  have hfind2 : (rows.map (optimisticUpdate cid fA vA
        (nextGoldenTs fA vA tA target.golden_started_at))).find?
      (fun r => r.characterId == cid) =
      some (optimisticUpdate cid fA vA (nextGoldenTs fA vA tA target.golden_started_at)
        target) := by
    rw [List.find?_map]
    rw [show ((fun r : RowState => r.characterId == cid) ∘
        optimisticUpdate cid fA vA (nextGoldenTs fA vA tA target.golden_started_at)) =
        (fun r : RowState => r.characterId == cid) from
      funext (fun r => by
        show ((optimisticUpdate cid fA vA _ r).characterId == cid) = (r.characterId == cid)
        rw [optimisticUpdate_characterId])]
    rw [hfind]
    rfl
  simp only [twoEditsResolve, editStart_eq target hfind,
    editStart_eq
      (optimisticUpdate cid fA vA (nextGoldenTs fA vA tA target.golden_started_at) target)
      hfind2]
  refine ⟨_, rfl, ?_⟩
  intro r hr hcid
  cases aFirst
  · rw [if_neg (by simp)] at hr
    rw [editResolve_ok, editResolve_fail] at hr
    simp only [List.map_map] at hr
    rcases List.mem_map.mp hr with ⟨r₀, hr₀, rfl⟩
    by_cases hc₀ : r₀.characterId = cid
    · have hrt : r₀ = target := row_eq_of_find? hnd hfind hr₀ hc₀
      subst hrt
      constructor
      · simp [Function.comp, optimisticUpdate, if_pos hc₀,
          Function.update_noteq (Ne.symm hAB), Function.update_same]
      · simp [Function.comp, optimisticUpdate, if_pos hc₀,
          Function.update_noteq hAB, Function.update_same,
          Function.update_noteq (Ne.symm hAB)]
    · exfalso
      apply hc₀
      rw [← hcid]
      simp [Function.comp, optimisticUpdate, if_neg hc₀]
  · rw [if_pos (by simp)] at hr
    rw [editResolve_fail, editResolve_ok] at hr
    simp only [List.map_map] at hr
    rcases List.mem_map.mp hr with ⟨r₀, hr₀, rfl⟩
    by_cases hc₀ : r₀.characterId = cid
    · have hrt : r₀ = target := row_eq_of_find? hnd hfind hr₀ hc₀
      subst hrt
      constructor
      · simp [Function.comp, optimisticUpdate, if_pos hc₀,
          Function.update_noteq (Ne.symm hAB), Function.update_same]
      · simp [Function.comp, optimisticUpdate, if_pos hc₀,
          Function.update_noteq hAB, Function.update_same,
          Function.update_noteq (Ne.symm hAB)]
    · exfalso
      apply hc₀
      rw [← hcid]
      simp [Function.comp, optimisticUpdate, if_neg hc₀]

theorem claim_C2_witness :
    ((rowsDash.map RowState.characterId).Nodup ∧
      rowsDash.find? (fun r => r.characterId == "c1") = some rowW1 ∧
      FieldKey.daily ≠ FieldKey.wtp) ∧
      (∀ aFirst : Bool, ∃ final,
        twoEditsResolve rowsDash "c1" FieldKey.daily "Completed" 5 FieldKey.wtp "Cleared" 6
            "boom" aFirst = some final ∧
          ∀ r ∈ final, r.characterId = "c1" →
            r.fields FieldKey.wtp = "Cleared" ∧
              r.fields FieldKey.daily = rowW1.fields FieldKey.daily) := by
  refine ⟨⟨by decide, by decide, by decide⟩, ?_⟩
  exact claim_C2 rowsDash "c1" FieldKey.daily FieldKey.wtp "Completed" "Cleared" 5 6 "boom"
    rowW1 (by decide) (by decide) (by decide)

/-! ### Timed flag: activation and expiry -/

theorem claim_C3_counterexample :
    nextGoldenTs FieldKey.golden_goose "Active" 43200 none = some 43200 ∧
      isExpiredCheck (some 43200) (43200 + 7 * 86400 + 1) = false := by
  constructor
  · rfl
  · decide

/-- C3 (amended): editing the timed flag to "Active" at instant `T` sets
the activation timestamp to `T`, editing it to "Inactive" clears it, and
editing any other field leaves it unchanged.  The expiry check, however,
compares calendar days: it reports expired exactly when the checking
instant falls on a strictly later calendar day than `T` plus 7 days — so
at `T` plus 6 days it reports not expired, at `T` plus 8 days it reports
expired, but at `T` plus 7 days plus one second it reports expired only
when that second crosses midnight. -/
theorem claim_C3 (T now : Nat) (v : String) (prev : Option Nat) :
    (nextGoldenTs FieldKey.golden_goose "Active" T prev = some T) ∧
      (nextGoldenTs FieldKey.golden_goose "Inactive" T prev = none) ∧
      (nextGoldenTs FieldKey.daily v T prev = prev) ∧
      (nextGoldenTs FieldKey.wtp v T prev = prev) ∧
      (nextGoldenTs FieldKey.sdn_outskirts v T prev = prev) ∧
      (nextGoldenTs FieldKey.sdn_core v T prev = prev) ∧
      (isExpiredCheck (some T) now = true ↔ calendarDay (addDays T 7) < calendarDay now) ∧
      (isExpiredCheck (some T) (addDays T 6) = false) ∧
      (isExpiredCheck (some T) (addDays T 8) = true) := by
  refine ⟨rfl, rfl, rfl, rfl, rfl, rfl, ?_, ?_, ?_⟩
  · show decide (differenceInCalendarDays (addDays T 7) now < 0) = true ↔
      calendarDay (addDays T 7) < calendarDay now
    simp only [decide_eq_true_eq]
    unfold differenceInCalendarDays
    omega
  · show decide (differenceInCalendarDays (addDays T 7) (addDays T 6) < 0) = false
    rw [decide_eq_false_iff_not]
    unfold differenceInCalendarDays calendarDay addDays
    omega
  · show decide (differenceInCalendarDays (addDays T 7) (addDays T 8) < 0) = true
    rw [decide_eq_true_eq]
    unfold differenceInCalendarDays calendarDay addDays
    omega
